import Mathlib

/-!
Shallow embedding of the BOINC Ax=b Monte Carlo tutorial project.

Part 1 models the server-side validator (`server/axb_validator.cpp`):
parsed partial solutions, the overlap-consistency check, the coverage
map, completeness, canonical-result choice and credit, as implemented
by `check_set`.

Part 2 models the client-side solver (`src/Axb-MonteCarlo.c`):
`prepare_iteration_form`, `random_walk` and `compute_solution`.
Doubles are modelled as rationals; the C stream of `rand_double()`
calls is modelled as an explicit function `draws : Nat -> Rat` with a
running position threaded through the computation.
-/

namespace Axb

/-- A parsed partial solution, as produced by `parse_result`:
a component range `[start_idx, end_idx]` and the values for it. -/
structure PartialSolution where
  start_idx : Int
  end_idx : Int
  values : List ℚ
deriving DecidableEq, Repr

/-- Number of components of the range, `end_idx - start_idx + 1` clamped at 0
(the C loops `for idx = start; idx <= end` run zero times when start > end). -/
def PartialSolution.size (s : PartialSolution) : ℕ :=
  (s.end_idx - s.start_idx + 1).toNat

/-- The list of component indices the solution claims, in increasing order. -/
def PartialSolution.range (s : PartialSolution) : List Int :=
  (List.range s.size).map (fun k : ℕ => s.start_idx + (k : Int))

/-- `start_idx <= idx <= end_idx`. -/
def PartialSolution.covers (s : PartialSolution) (idx : Int) : Prop :=
  s.start_idx ≤ idx ∧ idx ≤ s.end_idx

instance (s : PartialSolution) (idx : Int) : Decidable (s.covers idx) := by
  unfold PartialSolution.covers; infer_instance

/-- `sol.values[idx - sol.start_idx]`, the value the solution holds for a
component index of its range. -/
def PartialSolution.valueAt (s : PartialSolution) (idx : Int) : ℚ :=
  s.values.getD (idx - s.start_idx).toNat 0

/-- `fabs`, as the C code uses it. -/
def fabs (q : ℚ) : ℚ := if q < 0 then -q else q

/-- The error measure used by the validator on one pair of values:
relative error `|a-b| / ((|a|+|b|)/2)` when the average magnitude exceeds
`1e-10`, absolute difference otherwise. -/
def mergeError (a b : ℚ) : ℚ :=
  let diff := fabs (a - b)
  let avg := (fabs a + fabs b) / 2
  if (1 : ℚ) / 10 ^ 10 < avg then diff / avg else diff

/-- The coverage map `component_coverage`: component index to index of the
solution that currently claims it.  Newer entries are prepended, so lookup
returns the most recent claim, matching `std::map` overwriting. -/
abbrev Coverage := List (Int × ℕ)

/-- Lookup in the coverage map (most recent claim first). -/
def covLookup (cov : Coverage) (idx : Int) : Option ℕ :=
  (cov.find? (fun p => p.1 = idx)).map Prod.snd

/-- The running state of `check_set`'s parsing loop: accepted solutions and
the coverage map. -/
structure MergeState where
  solutions : List PartialSolution
  coverage : Coverage

/-- The state at the start of `check_set`. -/
def initState : MergeState := ⟨[], []⟩

/-- The overlap-consistency check for one arriving solution: every index of
its range that is already covered must agree with the covering solution's
value within the 1% tolerance. -/
def checkOverlap (st : MergeState) (sol : PartialSolution) : Bool :=
  sol.range.all (fun idx =>
    match covLookup st.coverage idx with
    | none => true
    | some prev =>
      match st.solutions.get? prev with
      | none => true
      | some psol =>
        decide (mergeError (sol.valueAt idx) (psol.valueAt idx) ≤ 1 / 100))

/-- Processing of one parsed solution by `check_set`: if consistent with all
previously claimed overlapping indices, append it to the accepted list and
claim every index of its range (overwriting earlier claims); otherwise
discard it entirely. -/
def processSolution (st : MergeState) (sol : PartialSolution) : MergeState :=
  if checkOverlap st sol then
    { solutions := st.solutions ++ [sol]
      coverage := (sol.range.map (fun idx => (idx, st.solutions.length))) ++ st.coverage }
  else st

/-- One result of the set handed to `check_set`: its database id and its
parsed output, `none` when the output file is missing or malformed
(the `continue` branches of the parsing loop). -/
structure ResultRec where
  rid : ℕ
  parsed : Option PartialSolution
deriving DecidableEq, Repr

/-- The parsing loop of `check_set` over the whole result set. -/
def processResults (rs : List ResultRec) : MergeState :=
  rs.foldl (fun st r =>
    match r.parsed with
    | none => st
    | some sol => processSolution st sol) initState

/-- `max_idx`: the highest `end_idx` among accepted solutions, starting at 0. -/
def maxIdx (sols : List PartialSolution) : Int :=
  sols.foldl (fun m s => if s.end_idx > m then s.end_idx else m) 0

/-- The completeness check: every component index in `[0, max_idx]` claimed. -/
def isComplete (st : MergeState) : Bool :=
  (List.range ((maxIdx st.solutions).toNat + 1)).all
    (fun k => (covLookup st.coverage (k : Int)).isSome)

/-- Credit: sum over accepted solutions of `(end_idx - start_idx + 1) * 10`. -/
def creditOf (sols : List PartialSolution) : ℚ :=
  sols.foldl (fun c s => c + ((s.end_idx - s.start_idx + 1 : Int) : ℚ) * 10) 0

/-- The outcome of `check_set`: return value, the retry flag, the canonical
result id (set only on success) and the credit, together with the final
merge state. -/
structure CheckOutcome where
  retval : Int
  retry : Bool
  canonicalid : Option ℕ
  credit : ℚ
  finalState : MergeState

/-- `check_set`: parse and merge all results; fail retryably when no result
was accepted or coverage of `[0, max_idx]` is incomplete; on success mark
`results[0]` canonical and grant per-component credit. -/
def check_set (rs : List ResultRec) : CheckOutcome :=
  let st := processResults rs
  if st.solutions.isEmpty then
    ⟨-1, true, none, 0, st⟩
  else if isComplete st then
    ⟨0, false, (rs.head?).map ResultRec.rid, creditOf st.solutions, st⟩
  else
    ⟨-1, true, none, 0, st⟩

/-- The merged value the coverage map holds for a component index:
the claiming solution's value there. -/
def mergedValueAt (st : MergeState) (idx : Int) : Option ℚ :=
  (covLookup st.coverage idx).bind
    (fun k => (st.solutions.get? k).map (fun s => s.valueAt idx))

/-- Index of the first solution in the list that covers a component index
(the claim a left-to-right merge of non-overlapping solutions produces). -/
def coverIndex (sols : List PartialSolution) (idx : Int) : Option ℕ :=
  match sols with
  | [] => none
  | s :: t => if s.covers idx then some 0 else (coverIndex t idx).map (· + 1)

/-! Part 2: the Monte Carlo solver of `src/Axb-MonteCarlo.c`. -/

/-- The system `Ax = b` as read by `read_input`. -/
structure LinearSystem where
  n : ℕ
  A : ℕ → ℕ → ℚ
  b : ℕ → ℚ

/-- The iteration form `x = Cx + f` with `C = I - D⁻¹A`, `f = D⁻¹b`, as stored
row-wise: `f`, the rows of `C`, and the row sums of `|C|`. -/
structure IterationForm where
  f : List ℚ
  C : List (List ℚ)
  row_sum : List ℚ
deriving DecidableEq, Repr

/-- One row of `prepare_iteration_form`: fails when `|A[i][i]| < 1e-12`,
otherwise yields `(f_i, C row i, row_sum i)`. -/
def prepRow (sys : LinearSystem) (i : ℕ) : Option (ℚ × List ℚ × ℚ) :=
  let diag := sys.A i i
  if fabs diag < (1 : ℚ) / 10 ^ 12 then none
  else
    let Crow := (List.range sys.n).map
      (fun j => if i = j then 0 else -(sys.A i j) / diag)
    some (sys.b i / diag, Crow, (Crow.map fabs).sum)

/-- The row loop of `prepare_iteration_form` over a list of row indices,
failing when any row fails (the C loop returns at the first singular row). -/
def prepRows (sys : LinearSystem) : List ℕ → Option (List (ℚ × List ℚ × ℚ))
  | [] => some []
  | i :: rest =>
    (prepRow sys i).bind (fun r => (prepRows sys rest).map (fun rs => r :: rs))

/-- `prepare_iteration_form`: builds `f`, `C` and `row_sum` for rows
`0 .. n-1`, failing when some diagonal is below `1e-12` in magnitude. -/
def prepare_iteration_form (sys : LinearSystem) : Option IterationForm :=
  (prepRows sys (List.range sys.n)).map
    (fun rows => ⟨rows.map Prod.fst, rows.map (fun r => r.2.1), rows.map (fun r => r.2.2)⟩)

/-- The data `random_walk` and `compute_solution` read from
`MonteCarloData`: dimension, `f`, `C`, `row_sum`, the component range and
the walk count. -/
structure WalkData where
  n : ℕ
  f : ℕ → ℚ
  C : ℕ → ℕ → ℚ
  row_sum : ℕ → ℚ
  start_idx : ℕ
  end_idx : ℕ
  num_walks : ℕ

/-- The next-state selection loop of `random_walk`: scan `j` upward,
accumulating `cumsum += |C[s][j]|`, and return the first `j` with
`r <= cumsum`; `none` when the scan falls off the end (the C code then
keeps the current state and weight). -/
def selectAux (md : WalkData) (s : ℕ) (r : ℚ) : ℕ → ℚ → Option ℕ
  | j, cumsum =>
    if h : j < md.n then
      let c := cumsum + fabs (md.C s j)
      if r ≤ c then some j else selectAux md s r (j + 1) c
    else none
termination_by j _ => md.n - j

/-- The walk loop of `random_walk`, with the remaining step budget as fuel
and the position in the random stream threaded through.  Returns the
accumulated sum, the number of contribution-accumulation steps performed,
and the stream position after the walk. -/
def walkAux (md : WalkData) (draws : ℕ → ℚ) :
    ℕ → ℕ → ℚ → ℚ → ℕ → ℚ × ℕ × ℕ
  | 0, _, _, sum, k => (sum, 0, k)
  | fuel + 1, s, w, sum, k =>
    let sum' := sum + w * md.f s
    if draws k < 1 / 10 then (sum', 1, k + 1)
    else if md.row_sum s < (1 : ℚ) / 10 ^ 12 then (sum', 1, k + 1)
    else
      let r := draws (k + 1) * md.row_sum s
      match selectAux md s r 0 0 with
      | none =>
        let out := walkAux md draws fuel s w sum' (k + 2)
        (out.1, out.2.1 + 1, out.2.2)
      | some j =>
        let w' := w * (if 0 ≤ md.C s j then 1 else -1) *
          (md.row_sum s / (1 - 1 / 10))
        let out := walkAux md draws fuel j w' sum' (k + 2)
        (out.1, out.2.1 + 1, out.2.2)

/-- `random_walk`: one walk from `start` with `MAX_STEPS = 10000`,
starting at stream position `k`. -/
def random_walk (md : WalkData) (draws : ℕ → ℚ) (start : ℕ) (k : ℕ) :
    ℚ × ℕ × ℕ :=
  walkAux md draws 10000 start 1 0 k

/-- The inner walk loop of `compute_solution` for one component `i`:
`cnt` walks in stream order, returning the running sum and the stream
position after them. -/
def runWalks (md : WalkData) (draws : ℕ → ℚ) (i : ℕ) : ℕ → ℕ → ℚ × ℕ
  | 0, pos => (0, pos)
  | cnt + 1, pos =>
    let one := random_walk md draws i pos
    let rest := runWalks md draws i cnt one.2.2
    (one.1 + rest.1, rest.2)

/-- The individual walk results for component `i`, in stream order. -/
def walkSamples (md : WalkData) (draws : ℕ → ℚ) (i : ℕ) : ℕ → ℕ → List ℚ
  | 0, _ => []
  | cnt + 1, pos =>
    let one := random_walk md draws i pos
    one.1 :: walkSamples md draws i cnt one.2.2

/-- The component loop of `compute_solution`: `cnt` components from `i`
upward, each the average of `num_walks` walks; returns the partial solution
values in ascending component order and the final stream position. -/
def computeAux (md : WalkData) (draws : ℕ → ℚ) : ℕ → ℕ → ℕ → List ℚ × ℕ
  | _, 0, pos => ([], pos)
  | i, cnt + 1, pos =>
    let comp := runWalks md draws i md.num_walks pos
    let rest := computeAux md draws (i + 1) cnt comp.2
    (comp.1 / (md.num_walks : ℚ) :: rest.1, rest.2)

/-- `compute_solution`: values for components `start_idx .. end_idx`. -/
def compute_solution (md : WalkData) (draws : ℕ → ℚ) (pos : ℕ) :
    List ℚ × ℕ :=
  computeAux md draws md.start_idx (md.end_idx + 1 - md.start_idx) pos

/-- Cumulative absolute sum of row `s` of `C` over columns `0 .. t-1`. -/
def cumAbs (md : WalkData) (s : ℕ) (t : ℕ) : ℚ :=
  ((List.range t).map (fun j => |md.C s j|)).sum

/-- Specification-side definition for the refinement claim: the state
chosen by cumulative-sum inversion,
the least column `j < n` whose cumulative absolute row sum reaches `r`
(defaulting to 0 when none does, which cannot happen for a draw in `[0,1)`). -/
def leastCross (md : WalkData) (s : ℕ) (r : ℚ) : ℕ :=
  (((List.range md.n).filter (fun j => decide (r ≤ cumAbs md s (j + 1))))).headD 0

/-- Specification-side definition for the refinement claim: one walk
iteration as the specification words it —
accumulate `weight * f[state]`; stop when the termination draw is below 0.1
or the row sum is numerically zero; otherwise move to the state given by
cumulative-sum inversion of a draw scaled by `row_sum` and rescale the
weight by `sign(C[s][j]) * row_sum[s] / (1 - 0.1)`. -/
def spec_walkAux (md : WalkData) (draws : ℕ → ℚ) :
    ℕ → ℕ → ℚ → ℚ → ℕ → ℚ × ℕ × ℕ
  | 0, _, _, sum, k => (sum, 0, k)
  | fuel + 1, s, w, sum, k =>
    let sum' := sum + w * md.f s
    if draws k < 1 / 10 then (sum', 1, k + 1)
    else if md.row_sum s < (1 : ℚ) / 10 ^ 12 then (sum', 1, k + 1)
    else
      let r := draws (k + 1) * md.row_sum s
      let j := leastCross md s r
      let w' := w * (if 0 ≤ md.C s j then 1 else -1) *
        (md.row_sum s / (1 - 1 / 10))
      let out := spec_walkAux md draws fuel j w' sum' (k + 2)
      (out.1, out.2.1 + 1, out.2.2)

/-- Specification-side definition for the refinement claim: the whole
random walk as the specification
describes it, with the fixed 10000-step budget. -/
def spec_random_walk (md : WalkData) (draws : ℕ → ℚ) (start : ℕ) (k : ℕ) :
    ℚ × ℕ × ℕ :=
  spec_walkAux md draws 10000 start 1 0 k

/-! Helper lemmas about ranges and the coverage map. -/

lemma size_eq (s : PartialSolution) :
    s.size = (s.end_idx - s.start_idx + 1).toNat := rfl

lemma mem_range_iff (s : PartialSolution) (idx : Int) :
    idx ∈ s.range ↔ s.covers idx := by
  rw [PartialSolution.range, List.mem_map, PartialSolution.covers]
  constructor
  · rintro ⟨k, hk, rfl⟩
    rw [List.mem_range, size_eq] at hk
    exact ⟨by omega, by omega⟩
  · rintro ⟨h1, h2⟩
    refine ⟨(idx - s.start_idx).toNat, ?_, ?_⟩
    · rw [List.mem_range, size_eq]; omega
    · omega

lemma covLookup_nil (idx : Int) : covLookup [] idx = none := rfl

lemma covLookup_cons (a : Int × ℕ) (cov : Coverage) (idx : Int) :
    covLookup (a :: cov) idx =
      if a.1 = idx then some a.2 else covLookup cov idx := by
  by_cases h : a.1 = idx <;> simp [covLookup, List.find?_cons, h]

lemma covLookup_claim_append (l : List Int) (m : ℕ) (cov : Coverage) (idx : Int) :
    covLookup ((l.map (fun i => (i, m))) ++ cov) idx =
      if idx ∈ l then some m else covLookup cov idx := by
  induction l with
  | nil => simp
  | cons a t ih =>
    rw [List.map_cons, List.cons_append, covLookup_cons]
    by_cases h : a = idx
    · simp [h]
    · simp only [h, if_false, ih, List.mem_cons]
      have : ¬ (idx = a) := fun hh => h hh.symm
      simp [this]

lemma checkOverlap_initState (sol : PartialSolution) :
    checkOverlap initState sol = true := by
  unfold checkOverlap initState
  rw [List.all_eq_true]
  intro idx _
  rfl

lemma processSolution_initState (sol : PartialSolution) :
    processSolution initState sol =
      ⟨[sol], sol.range.map (fun idx => (idx, 0))⟩ := by
  rw [processSolution, checkOverlap_initState]
  simp [initState]

lemma checkOverlap_false_of_conflict (s1 s2 : PartialSolution) (idx0 : Int)
    (hc1 : s1.covers idx0) (hc2 : s2.covers idx0)
    (herr : 1 / 100 < mergeError (s2.valueAt idx0) (s1.valueAt idx0)) :
    checkOverlap ⟨[s1], s1.range.map (fun idx => (idx, 0))⟩ s2 = false := by
  unfold checkOverlap
  rw [List.all_eq_false]
  refine ⟨idx0, (mem_range_iff s2 idx0).2 hc2, ?_⟩
  have hl : covLookup (s1.range.map (fun i => (i, 0))) idx0 = some 0 := by
    rw [← List.append_nil (s1.range.map (fun i => (i, 0))), covLookup_claim_append]
    simp [(mem_range_iff s1 idx0).2 hc1]
  simp only [hl, List.get?]
  simpa using not_le.2 herr

/-- **C1**: a merge input of two partial solutions whose ranges overlap and
disagree at some shared index beyond the 1% tolerance (relative error when
the average magnitude exceeds 1e-10, absolute otherwise) keeps the earlier
solution's full range claimed and discards the later solution entirely,
including its non-conflicting indices: the accepted list is exactly the
first solution, and the coverage map claims exactly its range. -/
theorem C1_conflicting_later_dropped (s1 s2 : PartialSolution)
    (h : ∃ idx : Int, s1.covers idx ∧ s2.covers idx ∧
      1 / 100 < mergeError (s2.valueAt idx) (s1.valueAt idx)) :
    (processResults [⟨1, some s1⟩, ⟨2, some s2⟩]).solutions = [s1] ∧
    ∀ idx : Int,
      covLookup (processResults [⟨1, some s1⟩, ⟨2, some s2⟩]).coverage idx =
        if s1.covers idx then some 0 else none := by
  obtain ⟨idx0, hc1, hc2, herr⟩ := h
  have hfold : processResults [⟨1, some s1⟩, ⟨2, some s2⟩] =
      processSolution (processSolution initState s1) s2 := rfl
  have hst1 : processSolution initState s1 =
      ⟨[s1], s1.range.map (fun idx => (idx, 0))⟩ := processSolution_initState s1
  have hov := checkOverlap_false_of_conflict s1 s2 idx0 hc1 hc2 herr
  have hp2 : processSolution (processSolution initState s1) s2 =
      processSolution initState s1 := by
    rw [hst1, processSolution, hov]; simp
  rw [hfold, hp2, hst1]
  refine ⟨rfl, fun idx => ?_⟩
  show covLookup (s1.range.map (fun i => (i, 0))) idx = _
  rw [← List.append_nil (s1.range.map (fun i => (i, 0))), covLookup_claim_append]
  by_cases hcv : s1.covers idx
  · simp [(mem_range_iff s1 idx).2 hcv, hcv]
  · have : ¬ idx ∈ s1.range := fun hm => hcv ((mem_range_iff s1 idx).1 hm)
    simp [this, hcv, covLookup_nil]

/-- Witness for C1 at a concrete conflicting pair: `[0,2]` with values
`1,1,1` then `[2,4]` with values `2,2,2` (relative error `2/3` at index 2). -/
theorem C1_witness :
    (∃ idx : Int, (⟨0, 2, [1, 1, 1]⟩ : PartialSolution).covers idx ∧
      (⟨2, 4, [2, 2, 2]⟩ : PartialSolution).covers idx ∧
      1 / 100 < mergeError ((⟨2, 4, [2, 2, 2]⟩ : PartialSolution).valueAt idx)
        ((⟨0, 2, [1, 1, 1]⟩ : PartialSolution).valueAt idx)) ∧
    ((processResults [⟨1, some ⟨0, 2, [1, 1, 1]⟩⟩, ⟨2, some ⟨2, 4, [2, 2, 2]⟩⟩]).solutions =
      [⟨0, 2, [1, 1, 1]⟩] ∧
    ∀ idx : Int,
      covLookup (processResults [⟨1, some ⟨0, 2, [1, 1, 1]⟩⟩,
          ⟨2, some ⟨2, 4, [2, 2, 2]⟩⟩]).coverage idx =
        if (⟨0, 2, [1, 1, 1]⟩ : PartialSolution).covers idx then some 0 else none) := by
  have h : ∃ idx : Int, (⟨0, 2, [1, 1, 1]⟩ : PartialSolution).covers idx ∧
      (⟨2, 4, [2, 2, 2]⟩ : PartialSolution).covers idx ∧
      1 / 100 < mergeError ((⟨2, 4, [2, 2, 2]⟩ : PartialSolution).valueAt idx)
        ((⟨0, 2, [1, 1, 1]⟩ : PartialSolution).valueAt idx) :=
    ⟨2, by decide, by decide, by
      have hv2 : (⟨2, 4, [2, 2, 2]⟩ : PartialSolution).valueAt 2 = 2 := by decide
      have hv1 : (⟨0, 2, [1, 1, 1]⟩ : PartialSolution).valueAt 2 = 1 := by decide
      rw [hv2, hv1]
      norm_num [mergeError, fabs]⟩
  exact ⟨h, C1_conflicting_later_dropped _ _ h⟩

/-- **C10**: when an arriving solution passes the consistency check against
all previously claimed overlapping indices, every index of its range —
including indices already claimed by an earlier solution — is reassigned in
the coverage map to the new solution (so later comparisons see the newest
value), while indices outside its range keep their previous claim. -/
theorem C10_accepted_solution_overwrites_coverage (st : MergeState)
    (sol : PartialSolution) (h : checkOverlap st sol = true) :
    (∀ idx : Int, sol.covers idx →
      covLookup (processSolution st sol).coverage idx = some st.solutions.length ∧
      mergedValueAt (processSolution st sol) idx = some (sol.valueAt idx)) ∧
    (∀ idx : Int, ¬ sol.covers idx →
      covLookup (processSolution st sol).coverage idx = covLookup st.coverage idx) := by
  have hps : processSolution st sol =
      ⟨st.solutions ++ [sol],
        (sol.range.map (fun idx => (idx, st.solutions.length))) ++ st.coverage⟩ := by
    rw [processSolution, h]; simp
  constructor
  · intro idx hcv
    have hlk : covLookup (processSolution st sol).coverage idx =
        some st.solutions.length := by
      rw [hps, covLookup_claim_append]
      simp [(mem_range_iff sol idx).2 hcv]
    refine ⟨hlk, ?_⟩
    rw [mergedValueAt, hlk, hps]
    simp [List.get?_concat_length]
  · intro idx hcv
    rw [hps, covLookup_claim_append]
    have : ¬ idx ∈ sol.range := fun hm => hcv ((mem_range_iff sol idx).1 hm)
    simp [this]

/-- Witness for C10: an accepted solution over `[0,1]` into the empty state
claims exactly its own range. -/
theorem C10_witness :
    checkOverlap initState ⟨0, 1, [5, 7]⟩ = true ∧
    ((∀ idx : Int, (⟨0, 1, [5, 7]⟩ : PartialSolution).covers idx →
      covLookup (processSolution initState ⟨0, 1, [5, 7]⟩).coverage idx =
        some initState.solutions.length ∧
      mergedValueAt (processSolution initState ⟨0, 1, [5, 7]⟩) idx =
        some ((⟨0, 1, [5, 7]⟩ : PartialSolution).valueAt idx)) ∧
    (∀ idx : Int, ¬ (⟨0, 1, [5, 7]⟩ : PartialSolution).covers idx →
      covLookup (processSolution initState ⟨0, 1, [5, 7]⟩).coverage idx =
        covLookup initState.coverage idx)) :=
  ⟨checkOverlap_initState _,
    C10_accepted_solution_overwrites_coverage initState _ (checkOverlap_initState _)⟩

lemma maxIdx_foldl_ge (l : List PartialSolution) (m : Int) :
    m ≤ l.foldl (fun m s => if s.end_idx > m then s.end_idx else m) m := by
  induction l generalizing m with
  | nil => simp
  | cons a t ih =>
    rw [List.foldl_cons]
    refine le_trans ?_ (ih _)
    by_cases h : a.end_idx > m
    · rw [if_pos h]; omega
    · rw [if_neg h]

lemma maxIdx_nonneg (sols : List PartialSolution) : 0 ≤ maxIdx sols :=
  maxIdx_foldl_ge sols 0

/-- **C3**: when the accepted partial solutions leave some index of
`[0, max_idx]` unclaimed (with `max_idx` the highest accepted end index),
`check_set` fails with the retryable incompleteness signal: `retry` is set
and the return value is nonzero. -/
theorem C3_gap_triggers_retry (rs : List ResultRec)
    (hne : (processResults rs).solutions ≠ [])
    (h : ∃ k : ℕ, (k : Int) ≤ maxIdx (processResults rs).solutions ∧
      covLookup (processResults rs).coverage (k : Int) = none) :
    (check_set rs).retry = true ∧ (check_set rs).retval = -1 := by
  obtain ⟨k, hk, hnone⟩ := h
  have hcomp : isComplete (processResults rs) = false := by
    rw [isComplete, List.all_eq_false]
    refine ⟨k, ?_, ?_⟩
    · rw [List.mem_range]
      have := maxIdx_nonneg (processResults rs).solutions
      omega
    · simp [hnone]
  rw [check_set]
  simp only [List.isEmpty_iff, hne, if_false, hcomp]
  simp

/-- Witness for C3: accepted solutions covering exactly `[0,2]` and `[4,6]`
leave index 3 unclaimed, `max_idx` evaluates to 6, and the merge retries. -/
theorem C3_witness :
    ((processResults [⟨1, some ⟨0, 2, [0, 0, 0]⟩⟩, ⟨2, some ⟨4, 6, [0, 0, 0]⟩⟩]).solutions ≠ [] ∧
     (3 : Int) ≤ maxIdx (processResults [⟨1, some ⟨0, 2, [0, 0, 0]⟩⟩,
        ⟨2, some ⟨4, 6, [0, 0, 0]⟩⟩]).solutions ∧
     covLookup (processResults [⟨1, some ⟨0, 2, [0, 0, 0]⟩⟩,
        ⟨2, some ⟨4, 6, [0, 0, 0]⟩⟩]).coverage (3 : Int) = none ∧
     maxIdx (processResults [⟨1, some ⟨0, 2, [0, 0, 0]⟩⟩,
        ⟨2, some ⟨4, 6, [0, 0, 0]⟩⟩]).solutions = 6) ∧
    (check_set [⟨1, some ⟨0, 2, [0, 0, 0]⟩⟩, ⟨2, some ⟨4, 6, [0, 0, 0]⟩⟩]).retry = true ∧
    (check_set [⟨1, some ⟨0, 2, [0, 0, 0]⟩⟩, ⟨2, some ⟨4, 6, [0, 0, 0]⟩⟩]).retval = -1 :=
  ⟨⟨by decide, by decide, by decide, by decide⟩,
    C3_gap_triggers_retry _ (by decide) ⟨3, by decide, by decide⟩⟩

lemma foldl_add_eq_sum (g : PartialSolution → ℚ) (l : List PartialSolution) (c : ℚ) :
    l.foldl (fun c s => c + g s) c = c + (l.map g).sum := by
  induction l generalizing c with
  | nil => simp
  | cons a t ih => rw [List.foldl_cons, ih, List.map_cons, List.sum_cons]; ring

lemma creditOf_eq_sum (sols : List PartialSolution) :
    creditOf sols =
      (sols.map (fun s => ((s.end_idx - s.start_idx + 1 : Int) : ℚ) * 10)).sum := by
  rw [creditOf, foldl_add_eq_sum]; ring

/-- **C5**: on every successful merge the granted credit is the sum over the
accepted partial solutions of `(end_idx - start_idx + 1)` times the fixed
10-credit per-component reward; no walk count enters (the parsed solution
carries none). -/
theorem C5_credit_is_component_count_times_reward (rs : List ResultRec)
    (h : (check_set rs).retval = 0) :
    (check_set rs).credit =
      ((check_set rs).finalState.solutions.map
        (fun s => ((s.end_idx - s.start_idx + 1 : Int) : ℚ) * 10)).sum := by
  rw [check_set] at h ⊢
  by_cases h1 : (processResults rs).solutions.isEmpty
  · simp only [h1, if_true] at h; exact absurd h (by norm_num)
  · by_cases h2 : isComplete (processResults rs)
    · simp only [h1, if_false, h2, if_true]
      exact creditOf_eq_sum _
    · simp only [h1, if_false, h2] at h; exact absurd h (by norm_num)

/-- Witness for C5: three accepted non-overlapping ranges of sizes 3, 4
and 5 yield credit `12 × 10`. -/
theorem C5_witness :
    (check_set [⟨1, some ⟨0, 2, [0, 0, 0]⟩⟩, ⟨2, some ⟨3, 6, [0, 0, 0, 0]⟩⟩,
        ⟨3, some ⟨7, 11, [0, 0, 0, 0, 0]⟩⟩]).retval = 0 ∧
    (check_set [⟨1, some ⟨0, 2, [0, 0, 0]⟩⟩, ⟨2, some ⟨3, 6, [0, 0, 0, 0]⟩⟩,
        ⟨3, some ⟨7, 11, [0, 0, 0, 0, 0]⟩⟩]).credit = 12 * 10 := by
  have h0 : (check_set [⟨1, some ⟨0, 2, [0, 0, 0]⟩⟩, ⟨2, some ⟨3, 6, [0, 0, 0, 0]⟩⟩,
      ⟨3, some ⟨7, 11, [0, 0, 0, 0, 0]⟩⟩]).retval = 0 := by decide
  have hs : (check_set [⟨1, some ⟨0, 2, [0, 0, 0]⟩⟩, ⟨2, some ⟨3, 6, [0, 0, 0, 0]⟩⟩,
      ⟨3, some ⟨7, 11, [0, 0, 0, 0, 0]⟩⟩]).finalState.solutions =
      [⟨0, 2, [0, 0, 0]⟩, ⟨3, 6, [0, 0, 0, 0]⟩, ⟨7, 11, [0, 0, 0, 0, 0]⟩] := by decide
  have hc := C5_credit_is_component_count_times_reward _ h0
  rw [hs] at hc
  refine ⟨h0, ?_⟩
  rw [hc]
  norm_num

/-- Counterexample to **C4** as stated: a set whose first result is
malformed (no parsed output) while the second covers `[0,1]` completely.
The merge succeeds, the emitted canonical id is 1 — the malformed result —
while the only contributing result is id 2. -/
theorem C4_counterexample :
    (check_set [⟨1, none⟩, ⟨2, some ⟨0, 1, [3, 4]⟩⟩]).retval = 0 ∧
    (check_set [⟨1, none⟩, ⟨2, some ⟨0, 1, [3, 4]⟩⟩]).canonicalid = some 1 ∧
    (([⟨1, none⟩, ⟨2, some ⟨0, 1, [3, 4]⟩⟩] : List ResultRec).filter
      (fun r => match r.parsed with
        | none => false
        | some s =>
          decide (s ∈ (check_set [⟨1, none⟩,
            ⟨2, some ⟨0, 1, [3, 4]⟩⟩]).finalState.solutions))).map ResultRec.rid
      = [2] := by
  refine ⟨by decide, by decide, by decide⟩

/-- **C4 amended**: on every successful merge, canonical status is assigned
to the first result of the submitted set — whether or not that result's
output was parsed or accepted into the merge. -/
theorem C4_amended_canonical_is_first_result (rs : List ResultRec)
    (h : (check_set rs).retval = 0) :
    (check_set rs).canonicalid = rs.head?.map ResultRec.rid := by
  rw [check_set] at h ⊢
  by_cases h1 : (processResults rs).solutions.isEmpty
  · simp only [h1, if_true] at h; exact absurd h (by norm_num)
  · by_cases h2 : isComplete (processResults rs)
    · simp [h1, h2]
    · simp only [h1, if_false, h2] at h; exact absurd h (by norm_num)

/-- Witness for the amended C4 at the counterexample input. -/
theorem C4_amended_witness :
    (check_set [⟨1, none⟩, ⟨2, some ⟨0, 1, [3, 4]⟩⟩]).retval = 0 ∧
    (check_set [⟨1, none⟩, ⟨2, some ⟨0, 1, [3, 4]⟩⟩]).canonicalid =
      ([⟨1, none⟩, ⟨2, some ⟨0, 1, [3, 4]⟩⟩] : List ResultRec).head?.map ResultRec.rid :=
  ⟨by decide, C4_amended_canonical_is_first_result _ (by decide)⟩

lemma processResults_map_some (sols : List PartialSolution) :
    processResults (sols.map (fun s => ⟨0, some s⟩)) =
      sols.foldl processSolution initState := by
  rw [processResults, List.foldl_map]

lemma checkOverlap_true_of_uncovered (st : MergeState) (s : PartialSolution)
    (h : ∀ idx : Int, s.covers idx → covLookup st.coverage idx = none) :
    checkOverlap st s = true := by
  rw [checkOverlap, List.all_eq_true]
  intro idx hm
  rw [h idx ((mem_range_iff s idx).1 hm)]

lemma processSolution_accepted (st : MergeState) (s : PartialSolution)
    (h : checkOverlap st s = true) :
    processSolution st s =
      ⟨st.solutions ++ [s],
        (s.range.map (fun idx => (idx, st.solutions.length))) ++ st.coverage⟩ := by
  rw [processSolution, h]; simp

lemma foldl_disjoint (rest : List PartialSolution) :
    ∀ st : MergeState,
    rest.Pairwise (fun a b => ∀ idx : Int, ¬ (a.covers idx ∧ b.covers idx)) →
    (∀ s ∈ rest, ∀ idx : Int, s.covers idx → covLookup st.coverage idx = none) →
    (rest.foldl processSolution st).solutions = st.solutions ++ rest ∧
    (∀ idx : Int,
      (covLookup st.coverage idx = none →
        covLookup (rest.foldl processSolution st).coverage idx =
          (coverIndex rest idx).map (fun i => st.solutions.length + i)) ∧
      (∀ v : ℕ, covLookup st.coverage idx = some v →
        covLookup (rest.foldl processSolution st).coverage idx = some v)) := by
  induction rest with
  | nil =>
    intro st _ _
    refine ⟨by simp, fun idx => ⟨fun h0 => ?_, fun v hv => by simpa using hv⟩⟩
    simp [coverIndex, h0]
  | cons s t ih =>
    intro st hpair hcross
    have hhead : ∀ b ∈ t, ∀ idx : Int, ¬ (s.covers idx ∧ b.covers idx) :=
      (List.pairwise_cons.1 hpair).1
    have htail := (List.pairwise_cons.1 hpair).2
    have hacc : checkOverlap st s = true :=
      checkOverlap_true_of_uncovered st s
        (fun idx hc => hcross s (List.mem_cons_self s t) idx hc)
    have hps := processSolution_accepted st s hacc
    have hcross' : ∀ s' ∈ t, ∀ idx : Int, s'.covers idx →
        covLookup (processSolution st s).coverage idx = none := by
      intro s' hs' idx hc
      rw [hps, covLookup_claim_append]
      have hnot : ¬ idx ∈ s.range := by
        intro hm
        exact hhead s' hs' idx ⟨(mem_range_iff s idx).1 hm, hc⟩
      rw [if_neg hnot]
      exact hcross s' (List.mem_cons_of_mem s hs') idx hc
    obtain ⟨ihsol, ihlk⟩ := ih (processSolution st s) htail hcross'
    rw [List.foldl_cons]
    constructor
    · rw [ihsol, hps]; simp
    · intro idx
      constructor
      · intro h0
        by_cases hcs : s.covers idx
        · have hst' : covLookup (processSolution st s).coverage idx =
              some st.solutions.length := by
            rw [hps, covLookup_claim_append, if_pos ((mem_range_iff s idx).2 hcs)]
          rw [(ihlk idx).2 _ hst']
          rw [coverIndex, if_pos hcs]
          simp
        · have hst' : covLookup (processSolution st s).coverage idx =
              covLookup st.coverage idx := by
            rw [hps, covLookup_claim_append,
              if_neg (fun hm => hcs ((mem_range_iff s idx).1 hm))]
          rw [(ihlk idx).1 (hst'.trans h0)]
          have hlen : (processSolution st s).solutions.length
              = st.solutions.length + 1 := by rw [hps]; simp
          rw [coverIndex, if_neg hcs, hlen]
          cases coverIndex t idx with
          | none => simp
          | some i => simp; omega
      · intro v hv
        have hnc : ¬ s.covers idx := by
          intro hc
          rw [hcross s (List.mem_cons_self s t) idx hc] at hv
          cases hv
        have hst' : covLookup (processSolution st s).coverage idx = some v := by
          rw [hps, covLookup_claim_append,
            if_neg (fun hm => hnc ((mem_range_iff s idx).1 hm))]
          exact hv
        exact (ihlk idx).2 v hst'

lemma coverIndex_isSome (sols : List PartialSolution) (idx : Int)
    (s : PartialSolution) (hs : s ∈ sols) (hc : s.covers idx) :
    (coverIndex sols idx).isSome := by
  induction sols with
  | nil => cases hs
  | cons a t ih =>
    rw [coverIndex]
    by_cases ha : a.covers idx
    · rw [if_pos ha]; rfl
    · rw [if_neg ha]
      rcases List.mem_cons.1 hs with rfl | hs'
      · exact absurd hc ha
      · cases hcase : coverIndex t idx with
        | none =>
          have hsome := ih hs'
          rw [hcase] at hsome
          exact Bool.noConfusion hsome
        | some i => rfl

lemma coverIndex_unique (sols : List PartialSolution) (idx : Int)
    (s : PartialSolution) (i : ℕ)
    (hdisj : sols.Pairwise (fun a b => ∀ k : Int, ¬ (a.covers k ∧ b.covers k)))
    (hs : s ∈ sols) (hc : s.covers idx)
    (h : coverIndex sols idx = some i) : sols.get? i = some s := by
  induction sols generalizing i with
  | nil => cases hs
  | cons a t ih =>
    rw [coverIndex] at h
    have hhead := (List.pairwise_cons.1 hdisj).1
    have htail := (List.pairwise_cons.1 hdisj).2
    by_cases ha : a.covers idx
    · rw [if_pos ha] at h
      cases h
      rcases List.mem_cons.1 hs with rfl | hs'
      · rfl
      · exact absurd ⟨ha, hc⟩ (hhead s hs' idx)
    · rw [if_neg ha] at h
      rcases List.mem_cons.1 hs with rfl | hs'
      · exact absurd hc ha
      · cases hcase : coverIndex t idx with
        | none => rw [hcase] at h; cases h
        | some i' =>
          rw [hcase] at h
          injection h with heq
          subst heq
          show t.get? i' = some s
          exact ih _ htail hs' hcase

lemma foldl_max_le (l : List PartialSolution) (B : Int) :
    ∀ m : Int, m ≤ B → (∀ s ∈ l, s.end_idx ≤ B) →
    l.foldl (fun m s => if s.end_idx > m then s.end_idx else m) m ≤ B := by
  induction l with
  | nil => intro m hm _; simpa using hm
  | cons a t ih =>
    intro m hm hb
    rw [List.foldl_cons]
    refine ih _ ?_ (fun s hs => hb s (List.mem_cons_of_mem a hs))
    by_cases h : a.end_idx > m
    · rw [if_pos h]; exact hb a (List.mem_cons_self a t)
    · rw [if_neg h]; exact hm

lemma maxIdx_le (sols : List PartialSolution) (B : Int) (h0 : 0 ≤ B)
    (h : ∀ s ∈ sols, s.end_idx ≤ B) : maxIdx sols ≤ B :=
  foldl_max_le sols B 0 h0 h

/-- **C2**: merging a full, non-overlapping partition of `[0, n-1]` into
well-formed partial solutions succeeds with no retry, drops no solution,
and the merged value at every covered index is exactly the submitting
solution's value. -/
theorem C2_partition_merge_roundtrip (n : ℕ) (sols : List PartialSolution)
    (hn : 1 ≤ n) (hne : sols ≠ [])
    (hwf : ∀ s ∈ sols, 0 ≤ s.start_idx ∧ s.start_idx ≤ s.end_idx ∧
      s.end_idx ≤ (n : Int) - 1 ∧ s.values.length = s.size)
    (hcov : ∀ k : ℕ, k < n → ∃ s, s ∈ sols ∧ s.covers (k : Int))
    (hdisj : sols.Pairwise (fun a b => ∀ idx : Int, ¬ (a.covers idx ∧ b.covers idx))) :
    (check_set (sols.map (fun s => ⟨0, some s⟩))).retval = 0 ∧
    (check_set (sols.map (fun s => ⟨0, some s⟩))).retry = false ∧
    (check_set (sols.map (fun s => ⟨0, some s⟩))).finalState.solutions = sols ∧
    ∀ s ∈ sols, ∀ idx : Int, s.covers idx →
      mergedValueAt (check_set (sols.map (fun s => ⟨0, some s⟩))).finalState idx =
        some (s.valueAt idx) := by
  have hfold := processResults_map_some sols
  obtain ⟨hsol, hlk⟩ := foldl_disjoint sols initState hdisj
    (fun s hs idx hc => rfl)
  rw [← hfold] at hsol hlk
  have hsols : (processResults (sols.map (fun s => ⟨0, some s⟩))).solutions = sols := by
    rw [hsol]; rfl
  have hlk' : ∀ idx : Int,
      covLookup (processResults (sols.map (fun s => ⟨0, some s⟩))).coverage idx =
        coverIndex sols idx := by
    intro idx
    rw [(hlk idx).1 rfl]
    cases coverIndex sols idx with
    | none => rfl
    | some i => show some (0 + i) = some i; rw [Nat.zero_add]
  have hmax : maxIdx sols ≤ (n : Int) - 1 := by
    refine maxIdx_le sols ((n : Int) - 1) (by omega) ?_
    intro s hs
    exact (hwf s hs).2.2.1
  have hcomplete : isComplete (processResults (sols.map (fun s => ⟨0, some s⟩))) = true := by
    rw [isComplete, List.all_eq_true]
    intro k hk
    rw [List.mem_range, hsols] at hk
    have hkn : k < n := by
      have h0 := maxIdx_nonneg sols
      omega
    obtain ⟨s, hs, hc⟩ := hcov k hkn
    have hsome := coverIndex_isSome sols (k : Int) s hs hc
    rw [hlk' (k : Int)]
    exact hsome
  have hemp : (processResults (sols.map (fun s => ⟨0, some s⟩))).solutions.isEmpty = false := by
    rw [hsols]
    cases sols with
    | nil => exact absurd rfl hne
    | cons a t => rfl
  have hcs : check_set (sols.map (fun s => ⟨0, some s⟩)) =
      ⟨0, false, ((sols.map (fun s => (⟨0, some s⟩ : ResultRec))).head?).map ResultRec.rid,
        creditOf (processResults (sols.map (fun s => ⟨0, some s⟩))).solutions,
        processResults (sols.map (fun s => ⟨0, some s⟩))⟩ := by
    rw [check_set]
    simp only [hemp, Bool.false_eq_true, if_false, hcomplete, if_true]
  refine ⟨by rw [hcs], by rw [hcs], by rw [hcs]; exact hsols, ?_⟩
  intro s hs idx hc
  rw [hcs]
  show mergedValueAt (processResults (sols.map (fun s => ⟨0, some s⟩))) idx = _
  have hsome := coverIndex_isSome sols idx s hs hc
  obtain ⟨i, hi⟩ := Option.isSome_iff_exists.1 hsome
  have hget := coverIndex_unique sols idx s i hdisj hs hc hi
  rw [mergedValueAt, hlk' idx, hi]
  show ((processResults (sols.map (fun s => ⟨0, some s⟩))).solutions.get? i).map _ = _
  rw [hsols, hget]
  rfl

/-- Witness for C2 at the partition `[0,1] ∪ [2,2]` of `[0,2]` (n = 3). -/
theorem C2_witness :
    (check_set (([⟨0, 1, [1, 2]⟩, ⟨2, 2, [3]⟩] : List PartialSolution).map
      (fun s => ⟨0, some s⟩))).retval = 0 ∧
    (check_set (([⟨0, 1, [1, 2]⟩, ⟨2, 2, [3]⟩] : List PartialSolution).map
      (fun s => ⟨0, some s⟩))).retry = false ∧
    (check_set (([⟨0, 1, [1, 2]⟩, ⟨2, 2, [3]⟩] : List PartialSolution).map
      (fun s => ⟨0, some s⟩))).finalState.solutions =
      [⟨0, 1, [1, 2]⟩, ⟨2, 2, [3]⟩] ∧
    ∀ s ∈ ([⟨0, 1, [1, 2]⟩, ⟨2, 2, [3]⟩] : List PartialSolution), ∀ idx : Int,
      s.covers idx →
      mergedValueAt (check_set (([⟨0, 1, [1, 2]⟩, ⟨2, 2, [3]⟩] : List PartialSolution).map
        (fun s => ⟨0, some s⟩))).finalState idx = some (s.valueAt idx) := by
  refine C2_partition_merge_roundtrip 3 [⟨0, 1, [1, 2]⟩, ⟨2, 2, [3]⟩]
    (by decide) (by decide) (by decide) (by decide) ?_
  refine List.Pairwise.cons ?_ (List.pairwise_singleton _ _)
  intro b hb idx hcontra
  rw [List.mem_singleton] at hb
  subst hb
  simp only [PartialSolution.covers] at hcontra
  omega

/-! Lemmas for the solver. -/

lemma fabs_eq_abs (q : ℚ) : fabs q = |q| := by
  rw [fabs]
  rcases lt_or_le q 0 with h | h
  · rw [if_pos h, abs_of_neg h]
  · rw [if_neg (not_lt.2 h), abs_of_nonneg h]

lemma prepRow_isSome_iff (sys : LinearSystem) (i : ℕ) :
    (prepRow sys i).isSome = true ↔ (1 : ℚ) / 10 ^ 12 ≤ |sys.A i i| := by
  rw [prepRow, ← fabs_eq_abs]
  by_cases h : fabs (sys.A i i) < (1 : ℚ) / 10 ^ 12
  · rw [if_pos h]
    constructor
    · intro hh; exact Bool.noConfusion hh
    · intro hh; exact absurd h (not_lt.2 hh)
  · rw [if_neg h]
    exact ⟨fun _ => not_lt.1 h, fun _ => rfl⟩

lemma prepRows_cons (sys : LinearSystem) (a : ℕ) (t : List ℕ) :
    prepRows sys (a :: t) =
      (prepRow sys a).bind (fun r => (prepRows sys t).map (fun rs => r :: rs)) :=
  rfl

lemma prepRows_isSome_iff (sys : LinearSystem) (l : List ℕ) :
    (prepRows sys l).isSome = true ↔
      ∀ i ∈ l, (prepRow sys i).isSome = true := by
  induction l with
  | nil =>
    constructor
    · intro _ i hi; cases hi
    · intro _; rfl
  | cons a t ih =>
    rw [prepRows_cons]
    cases ha : prepRow sys a with
    | none =>
      constructor
      · intro hh; exact Bool.noConfusion hh
      · intro hall
        have := hall a (List.mem_cons_self a t)
        rw [ha] at this
        exact Bool.noConfusion this
    | some r =>
      cases ht : prepRows sys t with
      | none =>
        rw [ht] at ih
        constructor
        · intro hh; exact Bool.noConfusion hh
        · intro hall
          have : ∀ i ∈ t, (prepRow sys i).isSome = true :=
            fun i hi => hall i (List.mem_cons_of_mem a hi)
          exact Bool.noConfusion (ih.2 this)
      | some rs =>
        rw [ht] at ih
        constructor
        · intro _ i hi
          rcases List.mem_cons.1 hi with rfl | hi'
          · rw [ha]; rfl
          · exact ih.1 rfl i hi'
        · intro _; rfl

lemma prepRows_get (sys : LinearSystem) (l : List ℕ) (rows : List (ℚ × List ℚ × ℚ))
    (h : prepRows sys l = some rows) :
    rows.length = l.length ∧
    ∀ k : ℕ, rows.get? k = (l.get? k).bind (prepRow sys) := by
  induction l generalizing rows with
  | nil =>
    injection h with h
    subst h
    exact ⟨rfl, fun k => by simp⟩
  | cons a t ih =>
    rw [prepRows_cons] at h
    cases ha : prepRow sys a with
    | none => rw [ha] at h; exact Option.noConfusion h
    | some r =>
      rw [ha] at h
      cases ht : prepRows sys t with
      | none => rw [ht] at h; exact Option.noConfusion h
      | some rs =>
        rw [ht] at h
        injection h with h
        subst h
        obtain ⟨hlen, hget⟩ := ih rs ht
        refine ⟨by simp [hlen], fun k => ?_⟩
        cases k with
        | zero => simp [ha]
        | succ k => simpa using hget k

lemma prepRow_eq_some (sys : LinearSystem) (i : ℕ) (r : ℚ × List ℚ × ℚ)
    (h : prepRow sys i = some r) :
    r.1 = sys.b i / sys.A i i ∧
    r.2.1 = (List.range sys.n).map
      (fun j => if i = j then 0 else -(sys.A i j) / sys.A i i) ∧
    r.2.2 = (r.2.1.map fabs).sum := by
  rw [prepRow] at h
  by_cases hd : fabs (sys.A i i) < (1 : ℚ) / 10 ^ 12
  · rw [if_pos hd] at h; exact Option.noConfusion h
  · rw [if_neg hd] at h
    injection h with h
    subst h
    exact ⟨rfl, rfl, rfl⟩

lemma getD_map_range (n : ℕ) (g : ℕ → ℚ) (j : ℕ) (hj : j < n) :
    ((List.range n).map g).getD j 0 = g j := by
  rw [List.getD_eq_get?, List.get?_map, List.get?_eq_getElem?, List.getElem?_range hj]
  rfl

/-- **C6**: the iteration-form builder succeeds iff every diagonal has
magnitude at least 1e-12, and on success `f[i] = b[i]/A[i][i]`,
`C[i][j] = -A[i][j]/A[i][i]` off the diagonal, `C[i][i] = 0`, and
`row_sum[i]` is the sum of `|C[i][j]|` over the row. -/
theorem C6_prepare_iteration_form_spec (sys : LinearSystem) :
    ((prepare_iteration_form sys).isSome = true ↔
      ∀ i, i < sys.n → (1 : ℚ) / 10 ^ 12 ≤ |sys.A i i|) ∧
    ∀ form, prepare_iteration_form sys = some form →
      ∀ i, i < sys.n →
        form.f.getD i 0 = sys.b i / sys.A i i ∧
        (∀ j, j < sys.n → j ≠ i →
          (form.C.getD i []).getD j 0 = -(sys.A i j) / sys.A i i) ∧
        (form.C.getD i []).getD i 0 = 0 ∧
        form.row_sum.getD i 0 =
          ((List.range sys.n).map (fun j => |(form.C.getD i []).getD j 0|)).sum := by
  constructor
  · rw [prepare_iteration_form]
    have h1 : ((prepRows sys (List.range sys.n)).map
        (fun rows => (⟨rows.map Prod.fst, rows.map (fun r => r.2.1),
          rows.map (fun r => r.2.2)⟩ : IterationForm))).isSome =
        (prepRows sys (List.range sys.n)).isSome := by
      cases prepRows sys (List.range sys.n) <;> rfl
    rw [h1, prepRows_isSome_iff]
    constructor
    · intro h i hi
      exact (prepRow_isSome_iff sys i).1 (h i (List.mem_range.2 hi))
    · intro h i hi
      exact (prepRow_isSome_iff sys i).2 (h i (List.mem_range.1 hi))
  · intro form hform i hi
    rw [prepare_iteration_form] at hform
    cases hrows : prepRows sys (List.range sys.n) with
    | none => rw [hrows] at hform; exact Option.noConfusion hform
    | some rows =>
      rw [hrows] at hform
      injection hform with hform
      obtain ⟨hlen, hget⟩ := prepRows_get sys _ rows hrows
      have hsome : (prepRow sys i).isSome = true :=
        (prepRows_isSome_iff sys _).1 (by rw [hrows]; rfl) i (List.mem_range.2 hi)
      obtain ⟨r, hr⟩ := Option.isSome_iff_exists.1 hsome
      obtain ⟨hr1, hr2, hr3⟩ := prepRow_eq_some sys i r hr
      have hri : rows.get? i = some r := by
        rw [hget i, List.get?_eq_getElem?, List.getElem?_range hi]
        exact hr
      have hf : form.f.getD i 0 = r.1 := by
        rw [← hform]
        show (rows.map Prod.fst).getD i 0 = r.1
        rw [List.getD_eq_get?, List.get?_map, hri]
        rfl
      have hCrow : form.C.getD i [] = r.2.1 := by
        rw [← hform]
        show (rows.map (fun r => r.2.1)).getD i [] = r.2.1
        rw [List.getD_eq_get?, List.get?_map, hri]
        rfl
      have hrowsum : form.row_sum.getD i 0 = r.2.2 := by
        rw [← hform]
        show (rows.map (fun r => r.2.2)).getD i 0 = r.2.2
        rw [List.getD_eq_get?, List.get?_map, hri]
        rfl
      refine ⟨by rw [hf, hr1], ?_, ?_, ?_⟩
      · intro j hj hne
        rw [hCrow, hr2, getD_map_range sys.n _ j hj, if_neg (fun hh => hne hh.symm)]
      · rw [hCrow, hr2, getD_map_range sys.n _ i hi, if_pos rfl]
      · rw [hrowsum, hr3, hCrow, hr2]
        rw [List.map_map]
        refine congrArg List.sum (List.map_congr_left ?_)
        intro j hj
        rw [List.mem_range] at hj
        simp only [Function.comp]
        rw [fabs_eq_abs, getD_map_range sys.n _ j hj]

/-- Witness for C6 at the 1×1 system `A = [[1]]`, `b = [1]`. -/
theorem C6_witness :
    (prepare_iteration_form ⟨1, fun _ _ => 1, fun _ => 1⟩).isSome = true ∧
    ((prepare_iteration_form ⟨1, fun _ _ => 1, fun _ => 1⟩).getD ⟨[], [], []⟩).f.getD 0 0 =
      (1 : ℚ) / 1 := by
  have hsome : (prepare_iteration_form ⟨1, fun _ _ => 1, fun _ => 1⟩).isSome = true :=
    (C6_prepare_iteration_form_spec ⟨1, fun _ _ => 1, fun _ => 1⟩).1.2
      (fun i _ => by norm_num)
  obtain ⟨form, hform⟩ := Option.isSome_iff_exists.1 hsome
  refine ⟨hsome, ?_⟩
  rw [hform]
  show form.f.getD 0 0 = (1 : ℚ) / 1
  exact ((C6_prepare_iteration_form_spec ⟨1, fun _ _ => 1, fun _ => 1⟩).2 form hform 0
    (by norm_num)).1

lemma walkAux_steps_le (md : WalkData) (draws : ℕ → ℚ) :
    ∀ fuel s w sum k, (walkAux md draws fuel s w sum k).2.1 ≤ fuel := by
  intro fuel
  induction fuel with
  | zero => intro s w sum k; exact Nat.le.refl
  | succ fuel ih =>
    intro s w sum k
    rw [walkAux]
    by_cases h1 : draws k < 1 / 10
    · rw [if_pos h1]; exact Nat.succ_le_succ (Nat.zero_le _)
    · rw [if_neg h1]
      by_cases h2 : md.row_sum s < (1 : ℚ) / 10 ^ 12
      · rw [if_pos h2]; exact Nat.succ_le_succ (Nat.zero_le _)
      · rw [if_neg h2]
        cases hsel : selectAux md s (draws (k + 1) * md.row_sum s) 0 0 with
        | none =>
          simp only [hsel]
          exact Nat.succ_le_succ (ih s w _ (k + 2))
        | some j =>
          simp only [hsel]
          exact Nat.succ_le_succ (ih j _ _ (k + 2))

/-- **C8**: every random walk terminates for every stream of draws, with at
most 10000 contribution-accumulation steps (the `MAX_STEPS` budget) before
returning. -/
theorem C8_walk_steps_bounded (md : WalkData) (draws : ℕ → ℚ)
    (start k : ℕ) : (random_walk md draws start k).2.1 ≤ 10000 :=
  walkAux_steps_le md draws 10000 start 1 0 k

lemma cumAbs_zero (md : WalkData) (s : ℕ) : cumAbs md s 0 = 0 := rfl

lemma cumAbs_succ (md : WalkData) (s t : ℕ) :
    cumAbs md s (t + 1) = cumAbs md s t + |md.C s t| := by
  rw [cumAbs, cumAbs, List.range_succ, List.map_append, List.sum_append]
  simp

lemma selectAux_spec (md : WalkData) (s : ℕ) (r : ℚ) :
    ∀ c j, md.n - j = c →
    selectAux md s r j (cumAbs md s j) =
      ((List.range' j c).filter (fun t => decide (r ≤ cumAbs md s (t + 1)))).head? := by
  intro c
  induction c with
  | zero =>
    intro j hj
    have hnj : ¬ j < md.n := by omega
    rw [selectAux, dif_neg hnj]
    rfl
  | succ c ih =>
    intro j hj
    have hjn : j < md.n := by omega
    rw [selectAux, dif_pos hjn]
    show (if r ≤ cumAbs md s j + fabs (md.C s j) then some j
      else selectAux md s r (j + 1) (cumAbs md s j + fabs (md.C s j))) = _
    have hc : cumAbs md s j + fabs (md.C s j) = cumAbs md s (j + 1) := by
      rw [fabs_eq_abs, cumAbs_succ]
    rw [hc, List.range'_succ, List.filter_cons]
    by_cases hcr : r ≤ cumAbs md s (j + 1)
    · rw [if_pos hcr]
      simp [hcr]
    · rw [if_neg hcr]
      rw [if_neg (by simpa using hcr)]
      exact ih (j + 1) (by omega)

lemma selectNext_head (md : WalkData) (s : ℕ) (r : ℚ) :
    selectAux md s r 0 0 =
      ((List.range md.n).filter (fun t => decide (r ≤ cumAbs md s (t + 1)))).head? := by
  have h := selectAux_spec md s r md.n 0 (Nat.sub_zero _)
  rw [cumAbs_zero] at h
  rw [h, ← List.range_eq_range']

lemma filter_crossing_ne_nil (md : WalkData) (s : ℕ) (r : ℚ)
    (h0 : 0 ≤ r) (hlt : r < cumAbs md s md.n) :
    ((List.range md.n).filter (fun t => decide (r ≤ cumAbs md s (t + 1)))) ≠ [] := by
  have hn : md.n ≠ 0 := by
    intro h
    rw [h, cumAbs_zero] at hlt
    exact absurd (lt_of_le_of_lt h0 hlt) (lt_irrefl 0)
  intro hnil
  have hmem : (md.n - 1) ∈ (List.range md.n).filter
      (fun t => decide (r ≤ cumAbs md s (t + 1))) := by
    rw [List.mem_filter]
    refine ⟨List.mem_range.2 (by omega), ?_⟩
    have heq : md.n - 1 + 1 = md.n := by omega
    rw [heq]
    exact decide_eq_true (le_of_lt hlt)
  rw [hnil] at hmem
  cases hmem

lemma walkAux_eq_spec (md : WalkData) (draws : ℕ → ℚ)
    (hd : ∀ t : ℕ, 0 ≤ draws t ∧ draws t < 1)
    (hrs : ∀ s, s < md.n → md.row_sum s = cumAbs md s md.n) :
    ∀ fuel s w sum k, s < md.n →
      walkAux md draws fuel s w sum k = spec_walkAux md draws fuel s w sum k := by
  intro fuel
  induction fuel with
  | zero => intro s w sum k _; rfl
  | succ fuel ih =>
    intro s w sum k hs
    rw [walkAux, spec_walkAux]
    by_cases h1 : draws k < 1 / 10
    · rw [if_pos h1, if_pos h1]
    · rw [if_neg h1, if_neg h1]
      by_cases h2 : md.row_sum s < (1 : ℚ) / 10 ^ 12
      · rw [if_pos h2, if_pos h2]
      · rw [if_neg h2, if_neg h2]
        have hrpos : (0 : ℚ) < md.row_sum s :=
          lt_of_lt_of_le (by norm_num) (not_lt.1 h2)
        have hr0 : 0 ≤ draws (k + 1) * md.row_sum s :=
          mul_nonneg (hd (k + 1)).1 (le_of_lt hrpos)
        have hrlt : draws (k + 1) * md.row_sum s < cumAbs md s md.n := by
          rw [← hrs s hs]
          calc draws (k + 1) * md.row_sum s
              < 1 * md.row_sum s := mul_lt_mul_of_pos_right (hd (k + 1)).2 hrpos
            _ = md.row_sum s := one_mul _
        have hsel := selectNext_head md s (draws (k + 1) * md.row_sum s)
        have hne := filter_crossing_ne_nil md s (draws (k + 1) * md.row_sum s) hr0 hrlt
        cases hL : (List.range md.n).filter
            (fun t => decide (draws (k + 1) * md.row_sum s ≤ cumAbs md s (t + 1))) with
        | nil => exact absurd hL hne
        | cons a t =>
          have hhead : selectAux md s (draws (k + 1) * md.row_sum s) 0 0 = some a := by
            rw [hsel, hL]; rfl
          have hlc : leastCross md s (draws (k + 1) * md.row_sum s) = a := by
            rw [leastCross, hL]; rfl
          have ha : a < md.n := by
            have hmem : a ∈ (List.range md.n).filter
                (fun t => decide (draws (k + 1) * md.row_sum s ≤ cumAbs md s (t + 1))) := by
              rw [hL]; exact List.mem_cons_self a t
            rw [List.mem_filter, List.mem_range] at hmem
            exact hmem.1
          simp only [hhead, hlc]
          rw [ih a _ _ (k + 2) ha]

/-- **C7**: under in-range draws, the random walk follows exactly the
specified iteration: accumulate `weight * f[state]`; stop when the
termination draw is below 0.1 or the row sum is numerically zero; otherwise
move to the state chosen by cumulative-sum inversion over `|C[state][·]|`
of a draw scaled by `row_sum[state]`, rescaling the weight by
`sign(C) * row_sum / (1 - 0.1)` — i.e. it coincides with the
specification-side walk. -/
theorem C7_walk_follows_spec (md : WalkData) (draws : ℕ → ℚ)
    (hd : ∀ t : ℕ, 0 ≤ draws t ∧ draws t < 1)
    (hrs : ∀ s, s < md.n → md.row_sum s = cumAbs md s md.n)
    (start k : ℕ) (hstart : start < md.n) :
    random_walk md draws start k = spec_random_walk md draws start k :=
  walkAux_eq_spec md draws hd hrs 10000 start 1 0 k hstart

/-- Witness for C7 on a 1-state system with constant draws of 1/2. -/
theorem C7_witness :
    ((0 : ℚ) ≤ (1 : ℚ) / 2 ∧ (1 : ℚ) / 2 < 1) ∧
    random_walk ⟨1, fun _ => 1, fun _ _ => 1 / 2, fun _ => 1 / 2, 0, 0, 1⟩
        (fun _ => 1 / 2) 0 0 =
      spec_random_walk ⟨1, fun _ => 1, fun _ _ => 1 / 2, fun _ => 1 / 2, 0, 0, 1⟩
        (fun _ => 1 / 2) 0 0 := by
  refine ⟨⟨by norm_num, by norm_num⟩, ?_⟩
  refine C7_walk_follows_spec _ _ (fun t => ⟨by norm_num, by norm_num⟩) ?_ 0 0
    (by norm_num)
  intro s _
  show (1 / 2 : ℚ) = cumAbs ⟨1, fun _ => 1, fun _ _ => 1 / 2, fun _ => 1 / 2, 0, 0, 1⟩ s 1
  rw [cumAbs]
  show (1 / 2 : ℚ) = |(1 : ℚ) / 2| + 0
  rw [abs_of_nonneg (by norm_num : (0 : ℚ) ≤ 1 / 2)]
  norm_num

lemma runWalks_sum_samples (md : WalkData) (draws : ℕ → ℚ) (i : ℕ) :
    ∀ cnt pos,
      (runWalks md draws i cnt pos).1 = (walkSamples md draws i cnt pos).sum ∧
      (walkSamples md draws i cnt pos).length = cnt := by
  intro cnt
  induction cnt with
  | zero => intro pos; exact ⟨rfl, rfl⟩
  | succ c ih =>
    intro pos
    constructor
    · show (random_walk md draws i pos).1 +
        (runWalks md draws i c (random_walk md draws i pos).2.2).1 =
        ((random_walk md draws i pos).1 ::
          walkSamples md draws i c (random_walk md draws i pos).2.2).sum
      rw [List.sum_cons, (ih _).1]
    · show (walkSamples md draws i c (random_walk md draws i pos).2.2).length + 1 = c + 1
      rw [(ih _).2]

lemma computeAux_length (md : WalkData) (draws : ℕ → ℚ) :
    ∀ cnt i pos, (computeAux md draws i cnt pos).1.length = cnt := by
  intro cnt
  induction cnt with
  | zero => intro i pos; rfl
  | succ c ih =>
    intro i pos
    show (computeAux md draws (i + 1) c
      (runWalks md draws i md.num_walks pos).2).1.length + 1 = c + 1
    rw [ih]

lemma computeAux_get (md : WalkData) (draws : ℕ → ℚ) :
    ∀ cnt k i pos, k < cnt →
      (computeAux md draws i cnt pos).1.get? k =
        some ((runWalks md draws (i + k) md.num_walks
          ((computeAux md draws i k pos).2)).1 / (md.num_walks : ℚ)) := by
  intro cnt
  induction cnt with
  | zero => intro k i pos hk; exact absurd hk (Nat.not_lt_zero k)
  | succ c ih =>
    intro k i pos hk
    cases k with
    | zero => rfl
    | succ k =>
      have hk' : k < c := by omega
      show (computeAux md draws (i + 1) c
        (runWalks md draws i md.num_walks pos).2).1.get? k = _
      rw [ih k (i + 1) _ hk']
      have h1 : i + 1 + k = i + (k + 1) := by omega
      rw [h1]
      rfl

/-- **C9**: for every walk-data and component range, the component solver's
output has exactly `end_idx - start_idx + 1` values in ascending component
order, and the value at offset `k` (component `start_idx + k`) is the sum
of its `num_walks` individual random-walk samples divided by `num_walks`. -/
theorem C9_compute_solution_averages_walks (md : WalkData) (draws : ℕ → ℚ)
    (pos : ℕ) (hw : 1 ≤ md.num_walks) (hr : md.start_idx ≤ md.end_idx) :
    (compute_solution md draws pos).1.length = md.end_idx + 1 - md.start_idx ∧
    ∀ k, k < md.end_idx + 1 - md.start_idx →
      (compute_solution md draws pos).1.get? k =
        some ((walkSamples md draws (md.start_idx + k) md.num_walks
          ((computeAux md draws md.start_idx k pos).2)).sum / (md.num_walks : ℚ)) ∧
      (walkSamples md draws (md.start_idx + k) md.num_walks
        ((computeAux md draws md.start_idx k pos).2)).length = md.num_walks := by
  refine ⟨computeAux_length md draws _ _ _, fun k hk => ⟨?_, ?_⟩⟩
  · rw [compute_solution, computeAux_get md draws _ k md.start_idx pos hk,
      (runWalks_sum_samples md draws (md.start_idx + k) md.num_walks _).1]
  · exact (runWalks_sum_samples md draws (md.start_idx + k) md.num_walks _).2

/-- Witness for C9: one component, two walks, draws that terminate each walk
immediately. -/
theorem C9_witness :
    1 ≤ (⟨1, fun _ => 1, fun _ _ => 0, fun _ => 0, 0, 0, 2⟩ : WalkData).num_walks ∧
    (compute_solution ⟨1, fun _ => 1, fun _ _ => 0, fun _ => 0, 0, 0, 2⟩
      (fun _ => 0) 0).1.length = 1 ∧
    (compute_solution ⟨1, fun _ => 1, fun _ _ => 0, fun _ => 0, 0, 0, 2⟩
        (fun _ => 0) 0).1.get? 0 =
      some ((walkSamples ⟨1, fun _ => 1, fun _ _ => 0, fun _ => 0, 0, 0, 2⟩
        (fun _ => 0) 0 2 0).sum / (2 : ℚ)) := by
  have h := C9_compute_solution_averages_walks
    ⟨1, fun _ => 1, fun _ _ => 0, fun _ => 0, 0, 0, 2⟩ (fun _ => 0) 0
    (by decide) (by decide)
  exact ⟨by decide, h.1, (h.2 0 (by decide)).1⟩

end Axb
